/-
Shallow embedding of the `orderedlist` Go package (src/orderedlist/orderedlist.go)
and verification of its specification.

Modelling conventions:
* Go `uint64` values are modelled as `Nat`.  The package only ever compares
  values with `<=` and never performs arithmetic on them, so the order
  structure of `uint64` on `[0, 2^64)` coincides with that of `Nat` on the
  values a caller can supply; no overflow can occur anywhere in the package.
* The Go map `Bookkeeping map[string]bool` only ever stores `true` (`Insert`
  sets `ol.Bookkeeping[key] = true`, `Remove` deletes the key); reading an
  absent key yields `false`.  It is therefore modelled as the list of keys
  present in the map, queried with `List.contains`; `delete` is `filter`.
* Methods that mutate the receiver and return an `error` are modelled as
  functions `OrderedList → ... → OrderedList × Option String`: the first
  component is the receiver's state after the call and the second is the
  returned error (`none` = `nil`).  The error strings are the literal
  messages of the Go source.
* `GetLowest`/`GetHighest` access `Rec[0]` / `Rec[len-1]` without any bounds
  check; on an empty list the Go program panics with an index-out-of-range
  runtime error.  The out-of-bounds access is modelled as `none` of an
  `Option Nat` result, `some v` being a normal return of `v`.
-/
import Mathlib

set_option maxHeartbeats 1000000

/-- A key/value pair, `Record` of the Go source. -/
structure Record where
  Key : String
  Value : Nat
deriving DecidableEq

/-- The container, `OrderedList` of the Go source: a membership map
(modelled as its list of keys) plus the value-sorted sequence of records. -/
structure OrderedList where
  Bookkeeping : List String
  Rec : List Record
deriving DecidableEq

/-- Function `New` returns a new (empty) instance of the ordered list. -/
def New : OrderedList :=
  { Bookkeeping := [], Rec := [] }

/-- Function `getPosition` returns the proper position (index) for a value: the Go
loop scans `Rec` from index 0 and returns the first index whose record
satisfies `value <= record.Value`, or `-1` if the loop finishes. -/
def OrderedList.getPosition (ol : OrderedList) (value : Nat) : Int :=
  match ol.Rec.findIdx? (fun record => decide (value ≤ record.Value)) with
  | some i => (i : Int)
  | none => -1

/-- Function `getIndexByKey` returns the index of the key-value pair in the array by
key: the Go loop returns the first index whose record has `record.Key == key`,
or (-1, error) if the loop finishes.  `none` models the error return. -/
def OrderedList.getIndexByKey (ol : OrderedList) (key : String) : Option Nat :=
  ol.Rec.findIdx? (fun record => record.Key == key)

/-- Method `Insert` inserts a key-value pair into the struct.  If the key is already
present in the bookkeeping map it fails with the duplicate-key error and
mutates nothing; otherwise the record is placed at `getPosition` (appended
when that is `-1`) and the key is registered. -/
def OrderedList.Insert (ol : OrderedList) (key : String) (value : Nat) :
    OrderedList × Option String :=
  if ol.Bookkeeping.contains key then
    (ol, some "key already exists")
  else
    let index := ol.getPosition value
    let newRec :=
      if index = -1 then
        ol.Rec ++ [{ Key := key, Value := value }]
      else
        ol.Rec.insertIdx index.toNat { Key := key, Value := value }
    ({ Bookkeeping := key :: ol.Bookkeeping, Rec := newRec }, none)

/-- Method `Get` returns the value of the provided key, or `(0, error)` when the key
is not found by `getIndexByKey`. -/
def OrderedList.Get (ol : OrderedList) (key : String) : Nat × Option String :=
  match ol.getIndexByKey key with
  | none => (0, some "key does not exists")
  | some index => ((ol.Rec.getD index { Key := "", Value := 0 }).Value, none)

/-- Method `GetLowest` returns `Rec[0].Value` with no emptiness guard; `none`
models the Go panic on an empty list. -/
def OrderedList.GetLowest (ol : OrderedList) : Option Nat :=
  (ol.Rec.head?).map Record.Value

/-- Method `GetHighest` returns `Rec[len(Rec)-1].Value` with no emptiness guard;
`none` models the Go panic on an empty list. -/
def OrderedList.GetHighest (ol : OrderedList) : Option Nat :=
  (ol.Rec.getLast?).map Record.Value

/-- Method `Remove` removes a key-value pair by key: it fails with the
key-not-found error if `getIndexByKey` fails, otherwise it removes the
record at the found index and deletes the key from the bookkeeping map. -/
def OrderedList.Remove (ol : OrderedList) (key : String) :
    OrderedList × Option String :=
  match ol.getIndexByKey key with
  | none => (ol, some "key does not exists")
  | some index =>
      ({ Bookkeeping := ol.Bookkeeping.filter (fun k => k != key),
         Rec := ol.Rec.eraseIdx index }, none)

/-- Method `Update` updates a value by key: `Remove` then `Insert`, propagating the
first error encountered; the state component is the receiver's state at the
point the Go method returns. -/
def OrderedList.Update (ol : OrderedList) (key : String) (value : Nat) :
    OrderedList × Option String :=
  match ol.Remove key with
  | (ol1, some e) => (ol1, some e)
  | (ol1, none) => ol1.Insert key value

/-- Method `Merge` merges the source list into the receiver by replaying each of
the source's records through `Insert`, discarding every per-record error.
The source is read-only. -/
def OrderedList.Merge (ol : OrderedList) (source : OrderedList) : OrderedList :=
  source.Rec.foldl (fun acc record => (acc.Insert record.Key record.Value).1) ol

/-- Value order on records, the comparison `value <= record.Value` used by
`getPosition`. -/
def recLE (a b : Record) : Prop := a.Value ≤ b.Value

instance : DecidableRel recLE := fun a b => Nat.decLe a.Value b.Value

instance : IsTotal Record recLE := ⟨fun a b => Nat.le_total a.Value b.Value⟩

instance : IsTrans Record recLE := ⟨fun _ _ _ => Nat.le_trans⟩

/-- The states reachable from `Construct()` (= `New`) by any sequence of
`Insert`, `Remove`, `Update` and `Merge` calls.  The constructors take the
post-state of the call whether it succeeded or failed: a failing call
returns the receiver unchanged, so its post-state is the pre-state. -/
inductive Reachable : OrderedList → Prop
  | new : Reachable New
  | insert (key : String) (value : Nat) {ol : OrderedList} :
      Reachable ol → Reachable (ol.Insert key value).1
  | remove (key : String) {ol : OrderedList} :
      Reachable ol → Reachable (ol.Remove key).1
  | update (key : String) (value : Nat) {ol : OrderedList} :
      Reachable ol → Reachable (ol.Update key value).1
  | merge (source : OrderedList) {ol : OrderedList} :
      Reachable ol → Reachable (ol.Merge source)

/-- First value stored under `key`, scanning a record list left to right:
the reference for what `Get` returns. -/
def findValue (key : String) : List Record → Option Nat
  | [] => none
  | r :: rs => if r.Key == key then some r.Value else findValue key rs

/-- The internal well-formedness invariant tying the two structures
together: no duplicate bookkeeping entries, no duplicate record keys,
bookkeeping and record keys agree, and the sequence is sorted by value. -/
def WF (ol : OrderedList) : Prop :=
  ol.Bookkeeping.Nodup ∧
  (ol.Rec.map Record.Key).Nodup ∧
  (∀ k : String, ol.Bookkeeping.contains k = true ↔ k ∈ ol.Rec.map Record.Key) ∧
  ol.Rec.Sorted recLE

/-- A failing `Insert` returns the duplicate-key error and the receiver
unchanged. -/
theorem Insert_fail {ol : OrderedList} {key : String} (value : Nat)
    (h : ol.Bookkeeping.contains key = true) :
    ol.Insert key value = (ol, some "key already exists") := by
  have hm : key ∈ ol.Bookkeeping := by simpa using h
  simp [OrderedList.Insert, hm]

theorem append_eq_orderedInsert {value : Nat} {recs : List Record}
    (h : recs.findIdx? (fun r => decide (value ≤ r.Value)) = none) (key : String) :
    recs ++ [{ Key := key, Value := value }] =
      List.orderedInsert recLE { Key := key, Value := value } recs := by
  induction recs with
  | nil => rfl
  | cons r rs ih =>
      rw [List.findIdx?_cons] at h
      by_cases hr : value ≤ r.Value
      · rw [decide_eq_true hr] at h
        simp at h
      · rw [decide_eq_false hr] at h
        simp only [Bool.false_eq_true, if_false] at h
        rw [List.findIdx?_succ] at h
        rcases hq : List.findIdx? (fun r => decide (value ≤ r.Value)) rs with _ | j
        · rw [List.cons_append, List.orderedInsert,
            if_neg (by simpa [recLE] using hr), ih hq]
        · rw [hq] at h
          simp at h

theorem insertIdx_eq_orderedInsert {value : Nat} {recs : List Record} {i : Nat}
    (h : recs.findIdx? (fun r => decide (value ≤ r.Value)) = some i) (key : String) :
    recs.insertIdx i { Key := key, Value := value } =
      List.orderedInsert recLE { Key := key, Value := value } recs := by
  induction recs generalizing i with
  | nil => simp at h
  | cons r rs ih =>
      rw [List.findIdx?_cons] at h
      by_cases hr : value ≤ r.Value
      · rw [decide_eq_true hr] at h
        simp only [if_true, Option.some.injEq] at h
        subst h
        rw [List.insertIdx_zero, List.orderedInsert, if_pos (by simpa [recLE] using hr)]
      · rw [decide_eq_false hr] at h
        simp only [Bool.false_eq_true, if_false] at h
        rw [List.findIdx?_succ] at h
        rcases hq : List.findIdx? (fun r => decide (value ≤ r.Value)) rs with _ | j
        · rw [hq] at h
          simp at h
        · rw [hq] at h
          simp at h
          subst h
          rw [List.insertIdx_succ_cons, List.orderedInsert,
            if_neg (by simpa [recLE] using hr), ih hq]

/-- A successful `Insert` registers the key and places the record by ordered
insertion with respect to `value <= existing.Value`. -/
theorem Insert_ok {ol : OrderedList} {key : String} {value : Nat}
    (h : ol.Bookkeeping.contains key = false) :
    ol.Insert key value =
      ({ Bookkeeping := key :: ol.Bookkeeping,
         Rec := List.orderedInsert recLE { Key := key, Value := value } ol.Rec },
       none) := by
  have hm : key ∉ ol.Bookkeeping := by simpa using h
  rcases hfind : ol.Rec.findIdx? (fun r => decide (value ≤ r.Value)) with _ | i
  · rw [← append_eq_orderedInsert hfind key]
    simp [OrderedList.Insert, OrderedList.getPosition, hfind, hm]
  · rw [← insertIdx_eq_orderedInsert hfind key]
    have hne : ((i : Int) = -1) = False := eq_false (by omega)
    simp [OrderedList.Insert, OrderedList.getPosition, hfind, hm, hne]

/-- Lemma: `getIndexByKey` fails exactly when no record bears the key. -/
theorem getIndexByKey_eq_none {ol : OrderedList} {key : String} :
    ol.getIndexByKey key = none ↔ ∀ r ∈ ol.Rec, r.Key ≠ key := by
  unfold OrderedList.getIndexByKey
  rw [List.findIdx?_eq_none_iff]
  constructor
  · intro h r hr
    simpa using h r hr
  · intro h r hr
    simpa using h r hr

/-- A successful `getIndexByKey` returns the first index whose record bears
the key. -/
theorem getIndexByKey_eq_some {ol : OrderedList} {key : String} {i : Nat}
    (h : ol.getIndexByKey key = some i) :
    i < ol.Rec.length ∧
      (ol.Rec.getD i { Key := "", Value := 0 }).Key = key ∧
      ∀ j, j < i → (ol.Rec.getD j { Key := "", Value := 0 }).Key ≠ key := by
  unfold OrderedList.getIndexByKey at h
  rw [List.findIdx?_eq_some_iff_getElem] at h
  obtain ⟨hi, h1, h2⟩ := h
  refine ⟨hi, ?_, fun j hj => ?_⟩
  · rw [List.getD_eq_getElem _ _ hi]
    simpa using h1
  · rw [List.getD_eq_getElem _ _ (Nat.lt_trans hj hi)]
    simpa using h2 j hj

/-- Lemma: `Get` returns the first value stored under the key, or the
key-not-found error. -/
theorem Get_eq_findValue (ol : OrderedList) (key : String) :
    ol.Get key =
      match findValue key ol.Rec with
      | none => (0, some "key does not exists")
      | some v => (v, none) := by
  unfold OrderedList.Get OrderedList.getIndexByKey
  generalize ol.Rec = recs
  induction recs with
  | nil => rfl
  | cons r rs ih =>
      rw [List.findIdx?_cons]
      cases hk : r.Key == key
      · simp only [Bool.false_eq_true, if_false]
        rw [List.findIdx?_succ]
        rw [findValue]
        rw [hk]
        simp only [Bool.false_eq_true, if_false]
        rcases hq : List.findIdx? (fun r => r.Key == key) rs with _ | j
        · rw [hq] at ih ⊢
          simpa using ih
        · rw [hq] at ih ⊢
          simpa using ih
      · simp [findValue, hk]

theorem findValue_eq_none_iff {key : String} {l : List Record} :
    findValue key l = none ↔ ∀ r ∈ l, r.Key ≠ key := by
  induction l with
  | nil => simp [findValue]
  | cons r rs ih =>
      cases hk : r.Key == key
      · simp only [findValue, hk, Bool.false_eq_true, if_false]
        rw [ih]
        constructor
        · intro h s hs
          rcases List.mem_cons.1 hs with rfl | hs
          · simpa using hk
          · exact h s hs
        · intro h s hs
          exact h s (List.mem_cons_of_mem r hs)
      · simp only [findValue, hk, if_true]
        constructor
        · intro h
          exact absurd h (by simp)
        · intro h
          exact absurd (by simpa using hk) (h r (List.mem_cons_self r rs))

theorem findValue_eq_some_exists {key : String} {l : List Record} {v : Nat}
    (h : findValue key l = some v) :
    ∃ r ∈ l, r.Key = key ∧ r.Value = v := by
  induction l with
  | nil => simp [findValue] at h
  | cons r rs ih =>
      cases hk : r.Key == key
      · rw [findValue, hk] at h
        simp only [Bool.false_eq_true, if_false] at h
        obtain ⟨s, hs, hsk, hsv⟩ := ih h
        exact ⟨s, List.mem_cons_of_mem r hs, hsk, hsv⟩
      · rw [findValue, hk] at h
        simp only [if_true, Option.some.injEq] at h
        exact ⟨r, List.mem_cons_self r rs, by simpa using hk, h⟩

/-- With pairwise-distinct keys, `findValue` finds each record of the
list. -/
theorem findValue_of_mem_nodup {l : List Record} {r : Record}
    (hnd : (l.map Record.Key).Nodup) (hr : r ∈ l) :
    findValue r.Key l = some r.Value := by
  induction l with
  | nil => simp at hr
  | cons s rs ih =>
      rw [List.map_cons, List.nodup_cons] at hnd
      rcases List.mem_cons.1 hr with rfl | hr
      · rw [findValue]
        simp
      · cases hk : s.Key == r.Key
        · rw [findValue, hk]
          simp only [Bool.false_eq_true, if_false]
          exact ih hnd.2 hr
        · have he : s.Key = r.Key := by simpa using hk
          have hmem : r.Key ∈ rs.map Record.Key := List.mem_map_of_mem Record.Key hr
          rw [← he] at hmem
          exact absurd hmem hnd.1

theorem findValue_orderedInsert_ne {x : Record} {key : String}
    (hx : x.Key ≠ key) (l : List Record) :
    findValue key (List.orderedInsert recLE x l) = findValue key l := by
  induction l with
  | nil =>
      rw [List.orderedInsert, findValue]
      simp [hx, findValue]
  | cons r rs ih =>
      rw [List.orderedInsert]
      by_cases hle : recLE x r
      · rw [if_pos hle, findValue]
        simp [hx]
      · rw [if_neg hle, findValue, findValue]
        cases hk : r.Key == key
        · simpa using ih
        · rfl

theorem findValue_orderedInsert_self {key : String} {v : Nat} {l : List Record}
    (hk : key ∉ l.map Record.Key) :
    findValue key (List.orderedInsert recLE { Key := key, Value := v } l) = some v := by
  induction l with
  | nil =>
      rw [List.orderedInsert, findValue]
      simp
  | cons r rs ih =>
      rw [List.map_cons, List.mem_cons] at hk
      push_neg at hk
      rw [List.orderedInsert]
      by_cases hle : recLE { Key := key, Value := v } r
      · rw [if_pos hle, findValue]
        simp
      · rw [if_neg hle, findValue]
        have : (r.Key == key) = false := by
          simp
          exact fun he => hk.1 he.symm
        rw [this]
        simp only [Bool.false_eq_true, if_false]
        exact ih hk.2

/-- A failing `Remove` returns the key-not-found error and the receiver
unchanged. -/
theorem Remove_fail {ol : OrderedList} {key : String}
    (h : ol.getIndexByKey key = none) :
    ol.Remove key = (ol, some "key does not exists") := by
  unfold OrderedList.Remove
  rw [h]

/-- A successful `Remove` erases the found record and filters the key out of
the bookkeeping list. -/
theorem Remove_ok {ol : OrderedList} {key : String} {i : Nat}
    (h : ol.getIndexByKey key = some i) :
    ol.Remove key =
      ({ Bookkeeping := ol.Bookkeeping.filter (fun k => k != key),
         Rec := ol.Rec.eraseIdx i }, none) := by
  unfold OrderedList.Remove
  rw [h]

theorem contains_filter_ne_self (l : List String) (key : String) :
    (l.filter (fun k => k != key)).contains key = false := by
  simp [List.mem_filter]

theorem contains_filter_ne {l : List String} {k key : String} (hk : k ≠ key) :
    (l.filter (fun x => x != key)).contains k = l.contains k := by
  have hmem : (k ∈ l.filter (fun x => x != key)) ↔ k ∈ l := by
    simp [List.mem_filter, hk]
  simp only [List.elem_eq_mem]
  exact decide_eq_decide.mpr hmem

/-- A failing `Update` returns the key-not-found error and the receiver
unchanged. -/
theorem Update_fail {ol : OrderedList} {key : String}
    (h : ol.getIndexByKey key = none) (value : Nat) :
    ol.Update key value = (ol, some "key does not exists") := by
  unfold OrderedList.Update
  rw [Remove_fail h]

/-- When the key is found, `Update` removes its record, re-inserts the key
with the new value (which always succeeds because the key was just filtered
out of the bookkeeping list), and reports no error. -/
theorem Update_ok {ol : OrderedList} {key : String} {i : Nat}
    (h : ol.getIndexByKey key = some i) (value : Nat) :
    ol.Update key value =
      ({ Bookkeeping := key :: ol.Bookkeeping.filter (fun k => k != key),
         Rec := List.orderedInsert recLE { Key := key, Value := value }
           (ol.Rec.eraseIdx i) }, none) := by
  unfold OrderedList.Update
  rw [Remove_ok h]
  exact Insert_ok (contains_filter_ne_self ol.Bookkeeping key)

theorem keys_orderedInsert_perm (x : Record) (l : List Record) :
    List.Perm ((List.orderedInsert recLE x l).map Record.Key)
      (x.Key :: l.map Record.Key) :=
  (List.perm_orderedInsert recLE x l).map Record.Key

theorem map_eraseIdx {α β : Type} (f : α → β) :
    ∀ (l : List α) (i : Nat), (l.eraseIdx i).map f = (l.map f).eraseIdx i
  | [], _ => by simp
  | _ :: _, 0 => by simp
  | a :: l, i + 1 => by
      simp only [List.eraseIdx_cons_succ, List.map_cons]
      rw [map_eraseIdx f l i]

theorem getD_decomp {α : Type} {l : List α} {i : Nat} (d : α)
    (hi : i < l.length) :
    l = l.take i ++ l.getD i d :: l.drop (i + 1) := by
  rw [List.getD_eq_getElem _ _ hi]
  conv_lhs => rw [← List.take_append_drop i l]
  rw [List.getElem_cons_drop l i hi]

theorem not_mem_eraseIdx_of_nodup {α : Type} {l : List α} {i : Nat} {d : α}
    (hnd : l.Nodup) (hi : i < l.length) :
    l.getD i d ∉ l.eraseIdx i := by
  rw [List.eraseIdx_eq_take_drop_succ]
  have hdec := getD_decomp d hi
  rw [hdec] at hnd
  rw [List.nodup_append] at hnd
  intro hmem
  rcases List.mem_append.1 hmem with hmem | hmem
  · exact hnd.2.2 hmem (List.mem_cons_self _ _)
  · exact (List.nodup_cons.1 hnd.2.1).1 hmem

theorem mem_eraseIdx_iff_of_ne {α : Type} {l : List α} {i : Nat} {d k : α}
    (hi : i < l.length) (hk : k ≠ l.getD i d) :
    k ∈ l.eraseIdx i ↔ k ∈ l := by
  rw [List.eraseIdx_eq_take_drop_succ]
  conv_rhs => rw [getD_decomp d hi]
  rw [List.mem_append, List.mem_append, List.mem_cons]
  tauto

theorem WF_new : WF New := by
  refine ⟨List.nodup_nil, List.nodup_nil, fun k => ?_, List.sorted_nil⟩
  simp [New]

theorem WF_insert {ol : OrderedList} (hwf : WF ol) (key : String)
    (value : Nat) : WF (ol.Insert key value).1 := by
  obtain ⟨h1, h2, h3, h4⟩ := hwf
  cases hc : ol.Bookkeeping.contains key
  · have hknotin : key ∉ ol.Rec.map Record.Key := by
      intro hmem
      rw [← h3 key] at hmem
      rw [hc] at hmem
      exact Bool.false_ne_true hmem
    rw [Insert_ok hc]
    refine ⟨?_, ?_, ?_, ?_⟩
    · exact List.nodup_cons.2 ⟨by simpa using hc, h1⟩
    · rw [(keys_orderedInsert_perm _ ol.Rec).nodup_iff]
      exact List.nodup_cons.2 ⟨hknotin, h2⟩
    · intro k
      rw [(keys_orderedInsert_perm _ ol.Rec).mem_iff]
      rw [List.contains_cons, List.mem_cons]
      cases he : k == key
      · simp only [Bool.false_or]
        rw [h3 k]
        have : ¬ k = key := by simpa using he
        tauto
      · have : k = key := by simpa using he
        simp [this]
    · exact h4.orderedInsert _ _
  · rw [Insert_fail value hc]
    exact ⟨h1, h2, h3, h4⟩

theorem WF_remove {ol : OrderedList} (hwf : WF ol) (key : String) :
    WF (ol.Remove key).1 := by
  obtain ⟨h1, h2, h3, h4⟩ := hwf
  rcases hidx : ol.getIndexByKey key with _ | i
  · rw [Remove_fail hidx]
    exact ⟨h1, h2, h3, h4⟩
  · obtain ⟨hi, hkey, -⟩ := getIndexByKey_eq_some hidx
    have hleni : i < (ol.Rec.map Record.Key).length := by
      rw [List.length_map]
      exact hi
    have hkeyD : (ol.Rec.map Record.Key).getD i "" = key := by
      rw [List.getD_eq_getElem _ _ hleni, List.getElem_map]
      rw [List.getD_eq_getElem _ _ hi] at hkey
      exact hkey
    rw [Remove_ok hidx]
    refine ⟨List.Nodup.filter _ h1, ?_, ?_, ?_⟩
    · rw [map_eraseIdx]
      exact List.Nodup.sublist (List.eraseIdx_sublist _ i) h2
    · intro k
      rw [map_eraseIdx]
      by_cases hk : k = key
      · subst hk
        rw [contains_filter_ne_self]
        constructor
        · intro h
          exact absurd h Bool.false_ne_true
        · intro h
          exact absurd h (hkeyD ▸ not_mem_eraseIdx_of_nodup h2 hleni)
      · rw [contains_filter_ne hk, h3 k,
          mem_eraseIdx_iff_of_ne hleni (hkeyD ▸ hk)]
    · exact List.Pairwise.sublist (List.eraseIdx_sublist _ i) h4

theorem WF_update {ol : OrderedList} (hwf : WF ol) (key : String)
    (value : Nat) : WF (ol.Update key value).1 := by
  have hrem : WF (ol.Remove key).1 := WF_remove hwf key
  unfold OrderedList.Update
  rcases hR : ol.Remove key with ⟨ol1, e⟩
  rw [hR] at hrem
  cases e
  · exact WF_insert hrem key value
  · exact hrem

theorem WF_foldl_insert :
    ∀ (recs : List Record) (acc : OrderedList), WF acc →
      WF (recs.foldl (fun a r => (a.Insert r.Key r.Value).1) acc)
  | [], _, h => h
  | r :: rs, acc, h =>
      WF_foldl_insert rs (acc.Insert r.Key r.Value).1 (WF_insert h r.Key r.Value)

theorem WF_merge {ol : OrderedList} (hwf : WF ol) (source : OrderedList) :
    WF (ol.Merge source) :=
  WF_foldl_insert source.Rec ol hwf

/-- Every reachable container satisfies the internal invariant. -/
theorem reachable_WF {ol : OrderedList} (h : Reachable ol) : WF ol := by
  induction h with
  | new => exact WF_new
  | insert key value _ ih => exact WF_insert ih key value
  | remove key _ ih => exact WF_remove ih key
  | update key value _ ih => exact WF_update ih key value
  | merge source _ ih => exact WF_merge ih source

/-- Replaying records through `Insert` never touches the value stored under
a key the receiver already holds: that key stays registered and `findValue`
on it is unchanged. -/
theorem foldl_insert_preserves_found (k : String) :
    ∀ (recs : List Record) (acc : OrderedList),
      acc.Bookkeeping.contains k = true →
      (recs.foldl (fun a r => (a.Insert r.Key r.Value).1) acc).Bookkeeping.contains k
          = true ∧
        findValue k (recs.foldl (fun a r => (a.Insert r.Key r.Value).1) acc).Rec =
          findValue k acc.Rec
  | [], _, h => ⟨h, rfl⟩
  | r :: rs, acc, h => by
      rw [List.foldl_cons]
      cases hc : acc.Bookkeeping.contains r.Key
      · have hne : r.Key ≠ k := by
          intro he
          rw [he, h] at hc
          exact Bool.noConfusion hc
        rw [Insert_ok hc]
        obtain ⟨ha, hb⟩ := foldl_insert_preserves_found k rs
          { Bookkeeping := r.Key :: acc.Bookkeeping,
            Rec := List.orderedInsert recLE { Key := r.Key, Value := r.Value } acc.Rec }
          (by rw [List.contains_cons, h]; simp)
        refine ⟨ha, ?_⟩
        rw [hb]
        exact findValue_orderedInsert_ne hne acc.Rec
      · rw [Insert_fail r.Value hc]
        exact foldl_insert_preserves_found k rs acc h

/-- Replaying a list of records with pairwise-distinct keys through `Insert`
adds, as a multiset, exactly those records whose key the accumulator does
not already hold. -/
theorem foldl_insert_rec_perm :
    ∀ (recs : List Record) (acc : OrderedList),
      (recs.map Record.Key).Nodup →
      List.Perm (recs.foldl (fun a r => (a.Insert r.Key r.Value).1) acc).Rec
        (acc.Rec ++ recs.filter (fun r => !(acc.Bookkeeping.contains r.Key)))
  | [], acc, _ => by simp
  | r :: rs, acc, hnd => by
      rw [List.map_cons, List.nodup_cons] at hnd
      rw [List.foldl_cons, List.filter_cons]
      cases hc : acc.Bookkeeping.contains r.Key
      · rw [Insert_ok hc]
        have ih := foldl_insert_rec_perm rs
          ({ Bookkeeping := r.Key :: acc.Bookkeeping,
             Rec := List.orderedInsert recLE { Key := r.Key, Value := r.Value }
               acc.Rec } : OrderedList) hnd.2
        have hfe :
            rs.filter (fun s => !((r.Key :: acc.Bookkeeping).contains s.Key)) =
              rs.filter (fun s => !(acc.Bookkeeping.contains s.Key)) := by
          refine List.filter_congr fun s hs => ?_
          have : (s.Key == r.Key) = false := by
            have : s.Key ≠ r.Key := by
              intro he
              exact hnd.1 (he ▸ List.mem_map_of_mem Record.Key hs)
            simpa using this
          rw [List.contains_cons, this]
          simp
        rw [hfe] at ih
        refine ih.trans ?_
        simp only [Bool.not_false, if_true]
        refine List.Perm.trans
          (List.Perm.append_right _ (List.perm_orderedInsert recLE _ acc.Rec)) ?_
        rw [List.cons_append]
        exact List.perm_middle.symm
      · rw [Insert_fail r.Value hc]
        simp only [Bool.not_true, Bool.false_eq_true, if_false]
        exact foldl_insert_rec_perm rs acc hnd.2

/-- On lists with pairwise-distinct keys, `findValue` is invariant under
permutation. -/
theorem findValue_perm {l1 l2 : List Record} (hp : List.Perm l1 l2)
    (hnd : (l1.map Record.Key).Nodup) (k : String) :
    findValue k l1 = findValue k l2 := by
  rcases h2 : findValue k l2 with _ | v
  · rw [findValue_eq_none_iff] at h2 ⊢
    intro r hr
    exact h2 r (hp.mem_iff.1 hr)
  · obtain ⟨r, hr, hrk, hrv⟩ := findValue_eq_some_exists h2
    have hr1 : r ∈ l1 := hp.mem_iff.2 hr
    have hfv := findValue_of_mem_nodup hnd hr1
    rw [hrk, hrv] at hfv
    exact hfv

theorem insertIdx_eq_take_cons_drop {α : Type} (x : α) :
    ∀ (l : List α) (i : Nat), i ≤ l.length →
      l.insertIdx i x = l.take i ++ x :: l.drop i
  | _, 0, _ => rfl
  | [], i + 1, h => by simp at h
  | a :: l, i + 1, h => by
      rw [List.insertIdx_succ_cons, List.take_succ_cons, List.drop_succ_cons,
        List.cons_append, insertIdx_eq_take_cons_drop x l i (Nat.le_of_succ_le_succ h)]

/-- C1: Sort invariant I1 — in every container reachable from `Construct()`
by any sequence of `Insert`, `Remove`, `Update` and `Merge` calls
(successful or failing), the record sequence is sorted ascending by value
non-strictly: every adjacent pair satisfies
`sequence[i].Value <= sequence[i+1].Value`. -/
theorem C1_sort_invariant {ol : OrderedList} (h : Reachable ol)
    (i : Nat) (hi : i + 1 < ol.Rec.length) :
    (ol.Rec.getD i { Key := "", Value := 0 }).Value ≤
      (ol.Rec.getD (i + 1) { Key := "", Value := 0 }).Value := by
  have hs : ol.Rec.Sorted recLE := (reachable_WF h).2.2.2
  have hi0 : i < ol.Rec.length := Nat.lt_of_succ_lt hi
  rw [List.getD_eq_getElem _ _ hi0, List.getD_eq_getElem _ _ hi]
  exact List.pairwise_iff_getElem.1 hs i (i + 1) hi0 hi (Nat.lt_succ_self i)

/-- Witness for C1: the container reached by inserting "a"→2 then "b"→1 has
its two records in ascending value order. -/
theorem C1_sort_invariant_witness :
    (((New.Insert "a" 2).1.Insert "b" 1).1.Rec.getD 0
        { Key := "", Value := 0 }).Value ≤
      (((New.Insert "a" 2).1.Insert "b" 1).1.Rec.getD 1
        { Key := "", Value := 0 }).Value :=
  C1_sort_invariant
    (Reachable.insert "b" 1 (Reachable.insert "a" 2 Reachable.new)) 0 (by decide)

/-- C5: Consistency invariants I2 and I3 — in every reachable container the
bookkeeping keys and the keys occurring in the record sequence coincide
(hence equal cardinalities), and no key occurs in more than one record. -/
theorem C5_consistency {ol : OrderedList} (h : Reachable ol) :
    (∀ k : String, ol.Bookkeeping.contains k = true ↔ k ∈ ol.Rec.map Record.Key) ∧
      (ol.Rec.map Record.Key).Nodup ∧
      ol.Bookkeeping.length = ol.Rec.length := by
  obtain ⟨h1, h2, h3, _⟩ := reachable_WF h
  refine ⟨h3, h2, ?_⟩
  have hperm : List.Perm ol.Bookkeeping (ol.Rec.map Record.Key) := by
    rw [List.perm_ext_iff_of_nodup h1 h2]
    intro k
    rw [← h3 k]
    simp
  rw [hperm.length_eq, List.length_map]

/-- Witness for C5 at the container reached by inserting "a"→2 then "b"→1. -/
theorem C5_consistency_witness :
    ((((New.Insert "a" 2).1.Insert "b" 1).1.Bookkeeping.contains "a" = true ↔
        "a" ∈ ((New.Insert "a" 2).1.Insert "b" 1).1.Rec.map Record.Key) ∧
      (((New.Insert "a" 2).1.Insert "b" 1).1.Rec.map Record.Key).Nodup ∧
      ((New.Insert "a" 2).1.Insert "b" 1).1.Bookkeeping.length =
        ((New.Insert "a" 2).1.Insert "b" 1).1.Rec.length) :=
  have hr : Reachable ((New.Insert "a" 2).1.Insert "b" 1).1 :=
    Reachable.insert "b" 1 (Reachable.insert "a" 2 Reachable.new)
  ⟨(C5_consistency hr).1 "a", (C5_consistency hr).2.1, (C5_consistency hr).2.2⟩

/-- C3: Inserting an already-present key fails with the duplicate-key error
and leaves the container (bookkeeping and sequence) completely unchanged,
for any value. -/
theorem C3_duplicate_insert (ol : OrderedList) (key : String) (value : Nat)
    (h : ol.Bookkeeping.contains key = true) :
    ol.Insert key value = (ol, some "key already exists") :=
  Insert_fail value h

/-- Witness for C3: re-inserting "a" into a container holding "a"→1 fails
and changes nothing. -/
theorem C3_duplicate_insert_witness :
    (New.Insert "a" 1).1.Bookkeeping.contains "a" = true ∧
      (New.Insert "a" 1).1.Insert "a" 7 =
        ((New.Insert "a" 1).1, some "key already exists") :=
  ⟨by decide, C3_duplicate_insert (New.Insert "a" 1).1 "a" 7 (by decide)⟩

/-- C2: On successful `Insert(key, value)` the new record lands at the
smallest index whose record has `Value >= value` (so a new record
tie-breaks before existing equal-valued records), or is appended at the end
when no such index exists; in particular inserting "x"=5, "y"=5, "z"=5 into
an empty container yields the sequence [z, y, x]. -/
theorem C2_insert_position :
    (∀ (ol ol2 : OrderedList) (key : String) (value : Nat),
        ol.Insert key value = (ol2, none) →
        ∃ i, i ≤ ol.Rec.length ∧
          ol2.Rec = ol.Rec.take i ++ { Key := key, Value := value } :: ol.Rec.drop i ∧
          (∀ j, j < i → (ol.Rec.getD j { Key := "", Value := 0 }).Value < value) ∧
          (i < ol.Rec.length →
            value ≤ (ol.Rec.getD i { Key := "", Value := 0 }).Value)) ∧
      (((New.Insert "x" 5).1.Insert "y" 5).1.Insert "z" 5).1.Rec =
        [{ Key := "z", Value := 5 }, { Key := "y", Value := 5 },
          { Key := "x", Value := 5 }] := by
  constructor
  · intro ol ol2 key value h
    have hc : ol.Bookkeeping.contains key = false := by
      cases hc : ol.Bookkeeping.contains key
      · rfl
      · rw [Insert_fail value hc] at h
        exact absurd (congrArg Prod.snd h) (by simp)
    rw [Insert_ok hc] at h
    have hrec : ol2.Rec =
        List.orderedInsert recLE { Key := key, Value := value } ol.Rec :=
      congrArg OrderedList.Rec (congrArg Prod.fst h).symm
    rcases hfind : ol.Rec.findIdx? (fun r => decide (value ≤ r.Value)) with _ | i
    · refine ⟨ol.Rec.length, Nat.le_refl _, ?_, ?_, ?_⟩
      · rw [hrec, ← append_eq_orderedInsert hfind key]
        rw [List.take_length, List.drop_length]
      · intro j hj
        rw [List.findIdx?_eq_none_iff] at hfind
        have hmem : ol.Rec.getD j { Key := "", Value := 0 } ∈ ol.Rec := by
          rw [List.getD_eq_getElem _ _ hj]
          exact List.getElem_mem hj
        have := hfind _ hmem
        simp only [decide_eq_false_iff_not, Nat.not_le] at this
        exact this
      · intro hlt
        exact absurd hlt (Nat.lt_irrefl _)
    · rw [List.findIdx?_eq_some_iff_getElem] at hfind
      obtain ⟨hi, hp, hprev⟩ := hfind
      refine ⟨i, Nat.le_of_lt hi, ?_, ?_, ?_⟩
      · rw [hrec, ← insertIdx_eq_orderedInsert (by
          rw [List.findIdx?_eq_some_iff_getElem]
          exact ⟨hi, hp, hprev⟩) key]
        exact insertIdx_eq_take_cons_drop _ ol.Rec i (Nat.le_of_lt hi)
      · intro j hj
        have := hprev j hj
        rw [List.getD_eq_getElem _ _ (Nat.lt_trans hj hi)]
        simp only [decide_eq_true_eq] at this
        omega
      · intro _
        rw [List.getD_eq_getElem _ _ hi]
        simpa using hp
  · decide

/-- Witness for C2: inserting "x"→5 into the empty container succeeds and
the positional characterization holds there. -/
theorem C2_insert_position_witness :
    New.Insert "x" 5 =
        (({ Bookkeeping := ["x"], Rec := [{ Key := "x", Value := 5 }] } :
          OrderedList), none) ∧
      ∃ i, i ≤ New.Rec.length ∧
        ({ Bookkeeping := ["x"], Rec := [{ Key := "x", Value := 5 }] } :
            OrderedList).Rec =
          New.Rec.take i ++ { Key := "x", Value := 5 } :: New.Rec.drop i ∧
        (∀ j, j < i → (New.Rec.getD j { Key := "", Value := 0 }).Value < 5) ∧
        (i < New.Rec.length → 5 ≤ (New.Rec.getD i { Key := "", Value := 0 }).Value) :=
  ⟨by decide, C2_insert_position.1 New _ "x" 5 (by decide)⟩

/-- After erasing the record found for `key`, no record of the remaining
sequence bears `key` (keys are pairwise distinct in a well-formed list). -/
theorem key_not_in_eraseIdx {ol : OrderedList} {key : String} {i : Nat}
    (hnd : (ol.Rec.map Record.Key).Nodup)
    (hidx : ol.getIndexByKey key = some i) :
    key ∉ (ol.Rec.eraseIdx i).map Record.Key := by
  obtain ⟨hi, hkey, -⟩ := getIndexByKey_eq_some hidx
  have hleni : i < (ol.Rec.map Record.Key).length := by
    rw [List.length_map]
    exact hi
  have hkeyD : (ol.Rec.map Record.Key).getD i "" = key := by
    rw [List.getD_eq_getElem _ _ hleni, List.getElem_map]
    rw [List.getD_eq_getElem _ _ hi] at hkey
    exact hkey
  rw [map_eraseIdx]
  exact hkeyD ▸ not_mem_eraseIdx_of_nodup hnd hleni

/-- C7: `Remove` of a present key erases exactly the (first) record bearing
that key from the sequence, deletes the key from membership, and a
subsequent `Get` of that key fails with the key-not-found error; `Remove`
of an absent key fails with the key-not-found error and leaves the
container unchanged. -/
theorem C7_remove :
    (∀ (ol : OrderedList) (key : String),
        ol.getIndexByKey key = none →
        ol.Remove key = (ol, some "key does not exists")) ∧
      (∀ (ol : OrderedList) (key : String) (i : Nat), Reachable ol →
        ol.getIndexByKey key = some i →
        i < ol.Rec.length ∧
          (ol.Rec.getD i { Key := "", Value := 0 }).Key = key ∧
          (∀ j, j < i → (ol.Rec.getD j { Key := "", Value := 0 }).Key ≠ key) ∧
          ol.Remove key =
            ({ Bookkeeping := ol.Bookkeeping.filter (fun k => k != key),
               Rec := ol.Rec.eraseIdx i }, none) ∧
          (ol.Remove key).1.Bookkeeping.contains key = false ∧
          (ol.Remove key).1.Get key = (0, some "key does not exists")) := by
  refine ⟨fun ol key h => Remove_fail h, fun ol key i hreach hidx => ?_⟩
  obtain ⟨hi, hkey, hprev⟩ := getIndexByKey_eq_some hidx
  have hnd : (ol.Rec.map Record.Key).Nodup := (reachable_WF hreach).2.1
  have hnone : findValue key (ol.Rec.eraseIdx i) = none := by
    rw [findValue_eq_none_iff]
    intro r hr he
    exact key_not_in_eraseIdx hnd hidx
      (he ▸ List.mem_map_of_mem Record.Key hr)
  refine ⟨hi, hkey, hprev, Remove_ok hidx, ?_, ?_⟩
  · rw [Remove_ok hidx]
    exact contains_filter_ne_self ol.Bookkeeping key
  · rw [Remove_ok hidx, Get_eq_findValue]
    simp only
    rw [hnone]

/-- Witness for C7: removing from the empty container fails; removing "a"
from a container holding "a"→1 makes a subsequent `Get "a"` fail. -/
theorem C7_remove_witness :
    New.Remove "a" = (New, some "key does not exists") ∧
      ((New.Insert "a" 1).1.Remove "a").1.Get "a" =
        (0, some "key does not exists") :=
  ⟨C7_remove.1 New "a" (by decide),
    (C7_remove.2 (New.Insert "a" 1).1 "a" 0
      (Reachable.insert "a" 1 Reachable.new) (by decide)).2.2.2.2.2⟩

/-- C6: `Update` is `Remove` then `Insert`: on an absent key it fails with
the key-not-found error leaving the container unchanged; on a present key
it succeeds, a subsequent `Get` returns the new value, and the record is
relocated: the resulting sequence is the ordered re-insertion of the new
record into the sequence with the old record erased. -/
theorem C6_update :
    (∀ (ol : OrderedList) (key : String) (value : Nat),
        ol.getIndexByKey key = none →
        ol.Update key value = (ol, some "key does not exists")) ∧
      (∀ (ol : OrderedList) (key : String) (value : Nat) (i : Nat),
        Reachable ol →
        ol.getIndexByKey key = some i →
        (ol.Update key value).2 = none ∧
          (ol.Update key value).1.Get key = (value, none) ∧
          (ol.Update key value).1.Rec =
            List.orderedInsert recLE { Key := key, Value := value }
              (ol.Rec.eraseIdx i)) := by
  refine ⟨fun ol key value h => Update_fail h value,
    fun ol key value i hreach hidx => ?_⟩
  have hnd : (ol.Rec.map Record.Key).Nodup := (reachable_WF hreach).2.1
  rw [Update_ok hidx value]
  refine ⟨rfl, ?_, rfl⟩
  rw [Get_eq_findValue]
  simp only
  rw [findValue_orderedInsert_self (key_not_in_eraseIdx hnd hidx)]

/-- Witness for C6: updating an absent key fails on the empty container;
after `Insert "a" 1` then `Update "a" 9`, `Get "a"` returns 9. -/
theorem C6_update_witness :
    New.Update "a" 9 = (New, some "key does not exists") ∧
      ((New.Insert "a" 1).1.Update "a" 9).1.Get "a" = (9, none) :=
  ⟨C6_update.1 New "a" 9 (by decide),
    (C6_update.2 (New.Insert "a" 1).1 "a" 9 0
      (Reachable.insert "a" 1 Reachable.new) (by decide)).2.1⟩

/-- C8: Round-trip — inserting a not-previously-present key succeeds and a
subsequent `Get` of it returns the inserted value; `Get` fails with the
key-not-found error exactly when no record of the sequence bears the key. -/
theorem C8_roundtrip :
    (∀ (ol : OrderedList) (key : String) (value : Nat), Reachable ol →
        ol.Bookkeeping.contains key = false →
        (ol.Insert key value).2 = none ∧
          (ol.Insert key value).1.Get key = (value, none)) ∧
      (∀ (ol : OrderedList) (key : String),
        (ol.Get key).2 = some "key does not exists" ↔
          ∀ r ∈ ol.Rec, r.Key ≠ key) := by
  constructor
  · intro ol key value hreach hc
    have h3 := (reachable_WF hreach).2.2.1
    have hnotin : key ∉ ol.Rec.map Record.Key := by
      intro hmem
      rw [← h3 key, hc] at hmem
      exact Bool.noConfusion hmem
    rw [Insert_ok hc]
    refine ⟨rfl, ?_⟩
    rw [Get_eq_findValue]
    simp only
    rw [findValue_orderedInsert_self hnotin]
  · intro ol key
    rw [Get_eq_findValue]
    rcases hf : findValue key ol.Rec with _ | v
    · rw [findValue_eq_none_iff] at hf
      simpa using hf
    · simp only
      constructor
      · intro h
        exact absurd h (by simp)
      · intro h
        obtain ⟨r, hr, hrk, -⟩ := findValue_eq_some_exists hf
        exact absurd hrk (h r hr)

/-- Witness for C8: inserting "k"→42 into the empty container succeeds and
`Get "k"` returns 42. -/
theorem C8_roundtrip_witness :
    (New.Insert "k" 42).2 = none ∧
      (New.Insert "k" 42).1.Get "k" = (42, none) :=
  C8_roundtrip.1 New "k" 42 Reachable.new (by decide)

/-- C4: `Merge` replays every source record through `Insert` on the
receiver and silently discards per-record errors: keys the receiver
already holds keep their receiver value (the conflicting source record is
dropped), and every source record whose key is fresh for the receiver ends
up in the receiver.  In the embedding `Merge` is a pure function whose
result type has no error component (matching the Go method, which returns
nothing), and the source argument is never modified by construction. -/
theorem C4_merge {ol src : OrderedList} (hol : Reachable ol)
    (hsrc : Reachable src) :
    (∀ k, ol.Bookkeeping.contains k = true →
        (ol.Merge src).Get k = ol.Get k) ∧
      (∀ r ∈ src.Rec, ol.Bookkeeping.contains r.Key = false →
        (ol.Merge src).Get r.Key = (r.Value, none)) := by
  constructor
  · intro k hk
    have h : findValue k (ol.Merge src).Rec = findValue k ol.Rec :=
      (foldl_insert_preserves_found k src.Rec ol hk).2
    rw [Get_eq_findValue, Get_eq_findValue, h]
  · intro r hr hc
    have hmerged : Reachable (ol.Merge src) := Reachable.merge src hol
    have hndm : ((ol.Merge src).Rec.map Record.Key).Nodup :=
      (reachable_WF hmerged).2.1
    have hnds : (src.Rec.map Record.Key).Nodup := (reachable_WF hsrc).2.1
    have hperm := foldl_insert_rec_perm src.Rec ol hnds
    have hrmem : r ∈ (ol.Merge src).Rec := by
      refine hperm.mem_iff.2 ?_
      rw [List.mem_append]
      right
      rw [List.mem_filter]
      refine ⟨hr, ?_⟩
      rw [hc]
      simp
    have hfv := findValue_of_mem_nodup hndm hrmem
    rw [Get_eq_findValue, hfv]

/-- Witness for C4: merging a source holding "a"→2 and "b"→3 into a
receiver holding "a"→1 keeps the receiver's "a" and brings in "b"→3. -/
theorem C4_merge_witness :
    ((New.Insert "a" 1).1.Merge
          ((New.Insert "a" 2).1.Insert "b" 3).1).Get "a" =
        (New.Insert "a" 1).1.Get "a" ∧
      ((New.Insert "a" 1).1.Merge
          ((New.Insert "a" 2).1.Insert "b" 3).1).Get "b" = (3, none) :=
  have hol : Reachable (New.Insert "a" 1).1 :=
    Reachable.insert "a" 1 Reachable.new
  have hsrc : Reachable ((New.Insert "a" 2).1.Insert "b" 3).1 :=
    Reachable.insert "b" 3 (Reachable.insert "a" 2 Reachable.new)
  ⟨(C4_merge hol hsrc).1 "a" (by decide),
    (C4_merge hol hsrc).2 { Key := "b", Value := 3 } (by decide) (by decide)⟩

/-- C9: on the empty container the Go `GetLowest`/`GetHighest` perform an
unguarded access to `Rec[0]` / `Rec[len(Rec)-1]` and panic (modelled as
`none`) instead of failing with an `EmptyContainerError` as the
specification requires; on a non-empty container they do return the first
(lowest) and last (highest) value, e.g. 1 and 9 after inserting
7, 3, 9, 1. -/
theorem C9_unguarded_empty_access :
    New.GetLowest = none ∧ New.GetHighest = none ∧
      ((((New.Insert "a" 7).1.Insert "b" 3).1.Insert "c" 9).1.Insert
          "d" 1).1.GetLowest = some 1 ∧
      ((((New.Insert "a" 7).1.Insert "b" 3).1.Insert "c" 9).1.Insert
          "d" 1).1.GetHighest = some 9 := by
  refine ⟨rfl, rfl, ?_, ?_⟩ <;> decide

/-- C10: merging a source whose sequence has pairwise-distinct keys into an
empty receiver copies the source's content exactly: `Get` agrees between
the merged receiver and the source on every key, and the merged receiver's
keys are a permutation of the source's keys (so it holds no other keys). -/
theorem C10_merge_into_empty (src : OrderedList)
    (hnd : (src.Rec.map Record.Key).Nodup) :
    (∀ k, (New.Merge src).Get k = src.Get k) ∧
      List.Perm ((New.Merge src).Rec.map Record.Key)
        (src.Rec.map Record.Key) := by
  have hfilter :
      src.Rec.filter (fun r => !(New.Bookkeeping.contains r.Key)) = src.Rec :=
    List.filter_eq_self.2 fun r _ => rfl
  have hperm : List.Perm (New.Merge src).Rec src.Rec := by
    have h := foldl_insert_rec_perm src.Rec New hnd
    rw [hfilter] at h
    simpa using h
  have hkeysperm :
      List.Perm ((New.Merge src).Rec.map Record.Key)
        (src.Rec.map Record.Key) := hperm.map _
  have hndm : ((New.Merge src).Rec.map Record.Key).Nodup :=
    hkeysperm.nodup_iff.2 hnd
  refine ⟨fun k => ?_, hkeysperm⟩
  rw [Get_eq_findValue, Get_eq_findValue, findValue_perm hperm hndm k]

/-- A concrete (deliberately unsorted) source container with
pairwise-distinct keys. -/
def mergeSource : OrderedList :=
  { Bookkeeping := ["b", "a"],
    Rec := [{ Key := "b", Value := 4 }, { Key := "a", Value := 2 }] }

/-- Witness for C10: merging a (deliberately unsorted, distinct-key) source
into the empty container reproduces its `Get` behavior and key set. -/
theorem C10_merge_into_empty_witness :
    (New.Merge mergeSource).Get "a" = mergeSource.Get "a" ∧
      List.Perm ((New.Merge mergeSource).Rec.map Record.Key)
        (mergeSource.Rec.map Record.Key) :=
  ⟨(C10_merge_into_empty mergeSource (by decide)).1 "a",
    (C10_merge_into_empty mergeSource (by decide)).2⟩
